import Mathlib

/-!
Verification of the find-and-replace search engine of a rich-text editor.

The development shallowly embeds the two source editions of the plugin
(the legacy `FindAndReplaceFormEditing` module and the newer
`FindAndReplaceEditing` module) and proves, or refutes, the spec's claims
about them.  Each definition names the source function it embeds.
Definitions come first, followed by helper lemmas and the claim theorems.
-/

namespace Proj

/-- One item yielded when walking a model range, under the assumed schema:
either a text node (carrying its character data) or a non-text inline
element (the only one in the schema is the line-break element
`softBreak`, an empty element occupying exactly one tree position). -/
inductive RangeItem where
  | text (data : String)
  | element (name : String)
deriving DecidableEq, Repr

/-- Embeds `rangeToText(range)`: a `reduce` over the range's items that
appends the node's character data for a text node and the single
placeholder character `"\n"` for any non-text node. -/
def rangeToText (items : List RangeItem) : String :=
  items.foldl
    (fun rangeText node =>
      match node with
      | .element _ => rangeText ++ "\n"
      | .text data => rangeText ++ data)
    ""

/-- Length, in tree-position units, contributed by one range item under the
assumed schema: a text node occupies one unit per character of data and an
empty inline element occupies one unit. -/
def itemLength : RangeItem → Nat
  | .text data => data.length
  | .element _ => 1

/-- Length of a range, in tree-position units: the sum of its items'
offset sizes. -/
def rangeLength (items : List RangeItem) : Nat :=
  (items.map itemLength).sum

end Proj

namespace Store

/-- One entry of the Result Store, as inserted by
`updateFindResultFromRange`: an identity, a display label, and the start
position of its marker.  Marker start positions are modelled as natural
numbers ordered like `Position#isBefore`. -/
structure FoundResult where
  id : String
  label : String
  markerStart : Nat
deriving DecidableEq, Repr

/-- Embeds `findInsertIndex(resultsList, markerToInsert)`: `Collection#find`
locates the first existing result whose marker start is after the
candidate marker's start (`markerToInsert.getStart().isBefore(...)`), and
its index is returned; when no such result exists the collection length is
returned.  `List.findIdx` returns the length when no element matches,
exactly as the source does. -/
def findInsertIndex (resultsList : List FoundResult) (markerToInsert : Nat) : Nat :=
  resultsList.findIdx (fun r => markerToInsert < r.markerStart)

/-- Embeds `Collection#add(item, index)`: splice the item in at the index. -/
def addAt (resultsList : List FoundResult) (index : Nat) (item : FoundResult) :
    List FoundResult :=
  resultsList.take index ++ [item] ++ resultsList.drop index

/-- One ordered insertion as performed by `updateFindResultFromRange`:
compute the index with `findInsertIndex` and splice the result in there. -/
def insertResult (resultsList : List FoundResult) (item : FoundResult) :
    List FoundResult :=
  addAt resultsList (findInsertIndex resultsList item.markerStart) item

/-- The Result Store is sorted ascending by marker start position. -/
def SortedByStart (resultsList : List FoundResult) : Prop :=
  resultsList.Pairwise (fun a b => a.markerStart ≤ b.markerStart)

instance (l : List FoundResult) : Decidable (SortedByStart l) := by
  unfold SortedByStart
  infer_instance

end Store

namespace Matching

/-!
Embedding of `findByTextCallback(searchTerm)`.

The source builds `new RegExp(searchTerm, "igu")` — the search term is
used *as-is* as a regular-expression pattern (not escaped) — and runs
`text.matchAll(regExp)`.  The embedding models the fragment of the
regular-expression dialect consisting of literal characters and the `.`
metacharacter (which, without the `s` flag, matches any character except
a line terminator).  Quantifiers, alternation, classes, escapes and
anchors are not modelled, so any theorem quantifying over search terms
restricts them to metacharacter-free strings — on those the fragment
coincides with the full dialect (a metacharacter-free pattern is a plain
literal sequence), while concrete evaluations only use terms inside the
fragment.  The `i`+`u` flags make matching case-insensitive, modelled by
folding both sides with `Char.toLower`.  `matchAll` semantics: scan
left-to-right from the last match's end; a zero-width match advances the
scan position by one; a match is only sought at positions not exceeding
the text length.
-/

/-- The four line-terminator characters that `.` does not match. -/
def isLineTerminator (c : Char) : Bool :=
  c = '\n' || c = '\r' || c = Char.ofNat 0x2028 || c = Char.ofNat 0x2029

/-- Whether one pattern token matches one text character: `.` matches any
non-line-terminator; a literal character matches case-insensitively. -/
def tokenMatches (pc tc : Char) : Bool :=
  if pc = '.' then !(isLineTerminator tc) else pc.toLower = tc.toLower

/-- Whether the pattern matches at the head of the remaining text. -/
def matchAt : List Char → List Char → Bool
  | [], _ => true
  | _ :: _, [] => false
  | pc :: ps, tc :: ts => tokenMatches pc tc && matchAt ps ts

/-- Leftmost position `≥ j` (within `rest = text.drop j`) at which the
pattern matches; `none` when there is no match to the right. -/
def searchFrom (p : List Char) : List Char → Nat → Option Nat
  | rest, j =>
    if matchAt p rest then some j
    else
      match rest with
      | [] => none
      | _ :: ts => searchFrom p ts (j + 1)

/-- The successive `(start, end)` spans produced by `text.matchAll(regExp)`
starting the scan at position `i`.  A zero-width match advances the scan
by one position (ES `AdvanceStringIndex`); the scan stops once the
position exceeds the text length.  `fuel` dominates the number of
iterations (each iteration advances the position by at least one). -/
def matchAllFrom (p t : List Char) : Nat → Nat → List (Nat × Nat)
  | _, 0 => []
  | i, fuel + 1 =>
    if i > t.length then []
    else
      match searchFrom p (t.drop i) i with
      | none => []
      | some j =>
        let e := j + p.length
        (j, e) :: matchAllFrom p t (if p.length = 0 then j + 1 else e) fuel

/-- One match record as produced by `regexpMatchToFindResult(matchResult)`:
`label` is the matched text `matchResult[0]`, `start` is `matchResult.index`
and `stop` models the source's `end` field, `index + matchResult[0].length`. -/
structure FindResult where
  label : String
  start : Nat
  stop : Nat
deriving DecidableEq, Repr

/-- Embeds the closure returned by `findByTextCallback(searchTerm)` applied
to a node's text: collect all `matchAll` matches and map them through
`regexpMatchToFindResult`. -/
def findByTextCallback (searchTerm : String) (text : String) : List FindResult :=
  (matchAllFrom searchTerm.data text.data 0 (text.length + 2)).map
    (fun se =>
      { label := String.mk ((text.data.drop se.1).take (se.2 - se.1))
        start := se.1
        stop := se.2 })

end Matching

namespace DocChange

/-!
Embedding of `onDocumentChange(results, model, searchCallback)` in its two
editions: the legacy one (module `FindAndReplaceFormEditing`) and the new
one (module `FindAndReplaceEditing`).  Positions and nodes are opaque
tokens; the host model's queries (`getMarkersAtPosition`,
`schema.isInline`, `getMarkersIntersectingRange(createRangeIn(node))`) are
oracle functions of the model, shared verbatim by both editions.  The
result store is the list of result identities (= marker names).  The
single `model.change` writer block of the removal phase is embedded as one
transaction: a list of removal events.
-/

/-- One entry of `model.document.differ.getChanges()`: its `name`, `type`,
its `position` (an opaque token), `position.parent` and
`position.nodeAfter` (node identifiers). -/
structure ChangeEntry where
  name : String
  type : String
  position : String
  posParent : String
  posNodeAfter : Option String
deriving DecidableEq, Repr

/-- One entry of `model.document.differ.getChangedMarkers()`: the marker
name and, when `data.newRange` is non-null, the root name
`newRange.start.root.rootName`; `none` models a null `newRange` (the
marker was removed in the batch). -/
structure ChangedMarker where
  name : String
  newRangeRoot : Option String
deriving DecidableEq, Repr

/-- The host model as consumed by `onDocumentChange`:
`markersAtPosition p` embeds `model.markers.getMarkersAtPosition(p)` (as
marker names), `isInline` embeds `model.schema.isInline`, and
`markersInNode n` embeds
`model.markers.getMarkersIntersectingRange(model.createRangeIn(n))`. -/
structure DocModel where
  changes : List ChangeEntry
  changedMarkers : List ChangedMarker
  markersAtPosition : String → List String
  isInline : Option String → Bool
  markersInNode : String → List String

/-- JS `Set#add`: insertion-ordered, ignoring elements already present. -/
def addToSet (s : List String) (a : String) : List String :=
  if a ∈ s then s else s ++ [a]

/-- Add every element of `l` to the set `s`, in order. -/
def addAllToSet (s : List String) (l : List String) : List String :=
  l.foldl addToSet s

/-- One iteration of the changes loop, shared verbatim by both editions:
for a `$text` change or an inline `nodeAfter`, mark `position.parent`
changed and mark every marker at the change position for removal;
otherwise, for an `insert` change, mark the inserted node
(`position.nodeAfter`, always present on insert changes) changed. -/
def changesStep (m : DocModel) (acc : List String × List String)
    (change : ChangeEntry) : List String × List String :=
  if change.name = "$text" || m.isInline change.posNodeAfter then
    (addToSet acc.1 change.posParent,
     addAllToSet acc.2 (m.markersAtPosition change.position))
  else if change.type = "insert" then
    (match change.posNodeAfter with
     | some node => addToSet acc.1 node
     | none => acc.1,
     acc.2)
  else acc

/-- The changes loop over `differ.getChanges()`.  Returns
`(changedNodes, removedMarkers)`, both insertion-ordered sets. -/
def changesLoop (m : DocModel) : List String × List String :=
  m.changes.foldl (changesStep m) ([], [])

/-- The changed-markers loop of the new edition: a marker whose (non-null)
`newRange` starts in the `$graveyard` root is marked for removal; a null
`newRange` is skipped by the `newRange &&` guard. -/
def graveyardMarkersNew (removedMarkers : List String)
    (changedMarkers : List ChangedMarker) : List String :=
  changedMarkers.foldl
    (fun rm cm =>
      match cm.newRangeRoot with
      | some root => if root = "$graveyard" then addToSet rm cm.name else rm
      | none => rm)
    removedMarkers

/-- The changed-markers loop of the legacy edition, which dereferences
`newRange.start` without a null guard: a null `newRange` raises a
TypeError. -/
def graveyardMarkersLegacy (removedMarkers : List String) :
    List ChangedMarker → Except String (List String)
  | [] => Except.ok removedMarkers
  | cm :: rest =>
    match cm.newRangeRoot with
    | some root =>
      graveyardMarkersLegacy
        (if root = "$graveyard" then addToSet removedMarkers cm.name
         else removedMarkers) rest
    | none => Except.error "TypeError: null newRange has no start"

/-- The changed-nodes sweep, shared verbatim by both editions: every
marker intersecting a changed node's full range is marked for removal. -/
def nodesSweep (m : DocModel) (changedNodes removedMarkers : List String) :
    List String :=
  changedNodes.foldl (fun rm node => addAllToSet rm (m.markersInNode node))
    removedMarkers

/-- One write performed inside the removal phase's single `model.change`
block: removing a Found Result from the Result Store, or removing a marker
from the document. -/
inductive RemovalEvent where
  | removeResult (name : String)
  | removeMarker (name : String)
deriving DecidableEq, Repr

/-- The removal phase of the new edition, inside one `model.change`:
for each collected marker name, first remove its result from the store if
present (`results.has` guard), then remove the marker.  Returns the store
after removals and the transaction's event list. -/
def removalPhaseNew : List String → List String → List String × List RemovalEvent
  | store, [] => (store, [])
  | store, n :: ns =>
    if n ∈ store then
      ((removalPhaseNew (store.erase n) ns).1,
       .removeResult n :: .removeMarker n :: (removalPhaseNew (store.erase n) ns).2)
    else
      ((removalPhaseNew store ns).1,
       .removeMarker n :: (removalPhaseNew store ns).2)

/-- The removal phase of the legacy edition: `results.remove(markerName)`
is called without a `has` guard, and `Collection#remove` raises when the
identity is absent. -/
def removalPhaseLegacy : List String → List String →
    Except String (List String × List RemovalEvent)
  | store, [] => Except.ok (store, [])
  | store, n :: ns =>
    if n ∈ store then
      match removalPhaseLegacy (store.erase n) ns with
      | Except.ok r =>
        Except.ok (r.1, .removeResult n :: .removeMarker n :: r.2)
      | Except.error e => Except.error e
    else Except.error "CKEditorError: collection-remove-404"

/-- The observable outcome of one document-change reaction: the changed
nodes (re-scanned, in order, by `updateFindResultFromRange` afterwards),
the collected marker names to remove, the removal transaction's events,
and the store after the removal phase. -/
structure Outcome where
  changedNodes : List String
  removedMarkers : List String
  removalTxn : List RemovalEvent
  store : List String
deriving DecidableEq, Repr

/-- Embeds the new edition's `onDocumentChange`: collect changed nodes and
markers to remove, extend with graveyard markers (null-guarded) and with
markers in changed nodes, then remove results and markers in one
transaction, then re-scan the changed nodes. -/
def onDocumentChangeNew (m : DocModel) (store : List String) : Outcome :=
  { changedNodes := (changesLoop m).1
    removedMarkers :=
      nodesSweep m (changesLoop m).1
        (graveyardMarkersNew (changesLoop m).2 m.changedMarkers)
    removalTxn :=
      (removalPhaseNew store
        (nodesSweep m (changesLoop m).1
          (graveyardMarkersNew (changesLoop m).2 m.changedMarkers))).2
    store :=
      (removalPhaseNew store
        (nodesSweep m (changesLoop m).1
          (graveyardMarkersNew (changesLoop m).2 m.changedMarkers))).1 }

/-- Embeds the legacy edition's `onDocumentChange`: identical to the new
one except that the graveyard loop dereferences a possibly-null `newRange`
and the removal loop calls `results.remove` unguarded. -/
def onDocumentChangeLegacy (m : DocModel) (store : List String) :
    Except String Outcome :=
  match graveyardMarkersLegacy (changesLoop m).2 m.changedMarkers with
  | Except.error e => Except.error e
  | Except.ok rm1 =>
    match removalPhaseLegacy store (nodesSweep m (changesLoop m).1 rm1) with
    | Except.error e => Except.error e
    | Except.ok phase =>
      Except.ok { changedNodes := (changesLoop m).1
                  removedMarkers := nodesSweep m (changesLoop m).1 rm1
                  removalTxn := phase.2
                  store := phase.1 }

/-- A concrete host model used by witnesses: one text change inside block
`blockA`, at a position carrying marker `findResult:a`, plus one changed
marker `findResult:g` whose new range moved to the graveyard root. -/
def exampleModel : DocModel where
  changes := [{ name := "$text", type := "attribute", position := "p1",
                posParent := "blockA", posNodeAfter := none }]
  changedMarkers := [{ name := "findResult:g", newRangeRoot := some "$graveyard" }]
  markersAtPosition := fun p => if p = "p1" then ["findResult:a"] else []
  isInline := fun _ => false
  markersInNode := fun _ => []

/-- A concrete host model on which the two editions diverge: the only
observed change is a changed marker whose `newRange` is null (the marker
was removed in the batch). -/
def nullRangeModel : DocModel where
  changes := []
  changedMarkers := [{ name := "findResult:x", newRangeRoot := none }]
  markersAtPosition := fun _ => []
  isInline := fun _ => false
  markersInNode := fun _ => []

end DocChange

namespace Replace

/-- A Found Result as consumed by `replace({ marker }, ...)`: the record's
marker, holding its current range as a half-open character span of the
document text. -/
structure FoundResult where
  id : String
  start : Nat
  stop : Nat
deriving DecidableEq, Repr

/-- The `textOrCallback` argument: a literal string, or a callback
computing the content to insert. -/
inductive TextOrCallback where
  | text (s : String)
  | callback (f : Unit → String)

/-- Embeds the `typeof textOrCallback === "function"` dispatch in
`replace` together with `getDefaultCallback`: resolve the argument to the
content string handed to `model.insertContent`. -/
def resolveContent : TextOrCallback → String
  | .text s => s
  | .callback f => f ()

/-- The state visible to the legacy plugin's `replace`/`replaceAll`: the
document (one block's text) and `activeResults` (null when no search
session is active). -/
structure PluginState where
  doc : String
  activeResults : Option (List FoundResult)
deriving DecidableEq, Repr

/-- Embeds `model.insertContent(callback(writer), range)` over a flat text
document: the content replaces the spanned characters. -/
def insertContent (doc : String) (start stop : Nat) (content : String) :
    String :=
  String.mk (doc.data.take start ++ content.data ++ doc.data.drop stop)

/-- Embeds the legacy plugin's `replace({ marker }, textOrCallback)`: one
`model.change` that reads the marker's current range and inserts the
resolved content over it.  The method reads only its arguments; it never
consults `activeResults`. -/
def replace (st : PluginState) (result : FoundResult)
    (textOrCallback : TextOrCallback) : PluginState :=
  { st with
    doc := insertContent st.doc result.start result.stop
      (resolveContent textOrCallback) }

/-- Embeds the legacy plugin's `replaceAll(textOrCallback)`: a guarded
no-op when `activeResults` is null; otherwise one `model.change` applying
`replace` to every active result. -/
def replaceAll (st : PluginState) (textOrCallback : TextOrCallback) :
    PluginState :=
  match st.activeResults with
  | none => st
  | some results => results.foldl (fun s r => replace s r textOrCallback) st

end Replace

namespace Highlight

/-!
Embedding of the `change:highlightedResult` listener registered in
`FindAndReplaceEditing#init`.  Marker names are lists of characters, so
that the `findResultHighlighted:` name prefix and the `split(':')[1]`
identity extraction are explicit.
-/

/-- The highlight-marker name prefix, including the separating colon. -/
def hlPrefixChars : List Char := "findResultHighlighted:".data

/-- A marker of the host model: a name and a range. -/
structure Marker where
  name : List Char
  range : Nat × Nat
deriving DecidableEq, Repr

/-- A Found Result as stored in `state.highlightedResult`: it owns a
marker, of which the name and the current range are used here. -/
structure FoundResult where
  markerName : List Char
  markerRange : Nat × Nat
deriving DecidableEq, Repr

/-- Embeds `marker.name.split(':')[1]`: the characters of the second
colon-separated segment of the name. -/
def matchIdOf (name : List Char) : List Char :=
  ((name.dropWhile (fun c => decide (c ≠ ':'))).drop 1).takeWhile
    (fun c => decide (c ≠ ':'))

/-- The highlight-marker name derived deterministically from a result's
identity: `findResultHighlighted:<matchId>`. -/
def highlightNameOf (r : FoundResult) : List Char :=
  hlPrefixChars ++ matchIdOf r.markerName

/-- Whether a marker name is a highlight-marker name. -/
def isHighlightName (name : List Char) : Bool :=
  hlPrefixChars.isPrefixOf name

/-- Embeds `model.markers.get(name)`. -/
def getMarker (markers : List Marker) (name : List Char) : Option Marker :=
  markers.find? (fun m => decide (m.name = name))

/-- Embeds `writer.removeMarker(marker)`: the named marker is dropped from
the collection (the host keys markers by name, so dropping every entry
carrying the name is the map's removal). -/
def removeMarkerByName (markers : List Marker) (name : List Char) :
    List Marker :=
  markers.filter (fun m => decide (m.name ≠ name))

/-- Embeds `writer.addMarker(name, { range })`. -/
def addMarker (markers : List Marker) (name : List Char) (range : Nat × Nat) :
    List Marker :=
  markers ++ [⟨name, range⟩]

/-- The `if (oldValue)` block of the `change:highlightedResult` listener:
when an old highlighted result existed, look up the highlight marker
derived from its identity (`oldValue.marker.name.split(':')[1]`) and
remove it when still present — a no-op when it is already gone. -/
def removeOldHighlight (markers : List Marker)
    (oldValue : Option FoundResult) : List Marker :=
  match oldValue with
  | none => markers
  | some r =>
    match getMarker markers (highlightNameOf r) with
    | some _ => removeMarkerByName markers (highlightNameOf r)
    | none => markers

/-- The `if (newValue)` block of the listener: when a new highlighted
result is set, create its highlight marker, spanning the new result's
current marker range (`newValue.marker.getRange()`). -/
def addNewHighlight (markers : List Marker)
    (newValue : Option FoundResult) : List Marker :=
  match newValue with
  | none => markers
  | some r => addMarker markers (highlightNameOf r) r.markerRange

/-- Embeds the `change:highlightedResult` listener registered in
`FindAndReplaceEditing#init`: inside one `model.change`, the old
highlighted result's marker is removed, then the new one's is added. -/
def onHighlightedResultChange (markers : List Marker)
    (oldValue newValue : Option FoundResult) : List Marker :=
  addNewHighlight (removeOldHighlight markers oldValue) newValue

/-- The highlight markers present in a marker collection. -/
def highlightMarkers (markers : List Marker) : List Marker :=
  markers.filter (fun m => isHighlightName m.name)

end Highlight

namespace Proj

theorem rangeToText_foldl_init (items : List RangeItem) (init : String) :
    (items.foldl
      (fun rangeText node =>
        match node with
        | .element _ => rangeText ++ "\n"
        | .text data => rangeText ++ data)
      init).length = init.length + rangeLength items := by
  induction items generalizing init with
  | nil => simp [rangeLength]
  | cons node rest ih =>
    cases node with
    | text data =>
      rw [List.foldl_cons]
      rw [ih]
      have h1 : (init ++ data).length = init.length + data.length :=
        String.length_append init data
      simp only [rangeLength, List.map_cons, List.sum_cons, itemLength] at *
      omega
    | element name =>
      rw [List.foldl_cons]
      rw [ih]
      have h1 := String.length_append init "\n"
      have h2 : ("\n" : String).length = 1 := by decide
      simp only [rangeLength, List.map_cons, List.sum_cons, itemLength] at *
      omega

end Proj

namespace Store

theorem addAt_zero (l : List FoundResult) (item : FoundResult) :
    addAt l 0 item = item :: l := by
  simp [addAt]

theorem addAt_succ (a : FoundResult) (l : List FoundResult) (n : Nat)
    (item : FoundResult) :
    addAt (a :: l) (n + 1) item = a :: addAt l n item := by
  simp [addAt]

theorem insertResult_sorted (l : List FoundResult) (item : FoundResult)
    (h : SortedByStart l) : SortedByStart (insertResult l item) := by
  induction l with
  | nil =>
    simp [insertResult, findInsertIndex, addAt, SortedByStart]
  | cons a rest ih =>
    by_cases hcmp : item.markerStart < a.markerStart
    · have hidx : findInsertIndex (a :: rest) item.markerStart = 0 := by
        simp [findInsertIndex, List.findIdx_cons, hcmp]
      unfold insertResult
      rw [hidx, addAt_zero]
      unfold SortedByStart at *
      refine List.Pairwise.cons ?_ h
      intro b hb
      rcases List.mem_cons.mp hb with hb1 | hb1
      · subst hb1; omega
      · have := (List.pairwise_cons.mp h).1 b hb1
        omega
    · have hidx : findInsertIndex (a :: rest) item.markerStart =
          findInsertIndex rest item.markerStart + 1 := by
        simp [findInsertIndex, List.findIdx_cons, hcmp]
      unfold insertResult
      rw [hidx, addAt_succ]
      unfold SortedByStart at *
      have hrest : rest.Pairwise (fun a b => a.markerStart ≤ b.markerStart) :=
        (List.pairwise_cons.mp h).2
      have hins := ih hrest
      unfold insertResult at hins
      refine List.Pairwise.cons ?_ hins
      intro b hb
      have hmem : b = item ∨ b ∈ rest := by
        have hb2 : b ∈ rest.take (findInsertIndex rest item.markerStart)
            ++ [item] ++ rest.drop (findInsertIndex rest item.markerStart) := by
          simpa [addAt] using hb
        simp only [List.mem_append, List.mem_singleton] at hb2
        rcases hb2 with (h1 | h1) | h1
        · exact Or.inr (List.take_subset _ _ h1)
        · exact Or.inl h1
        · exact Or.inr (List.drop_subset _ _ h1)
      rcases hmem with rfl | hmem
      · omega
      · exact (List.pairwise_cons.mp h).1 b hmem

end Store

namespace Matching

theorem matchAt_take (p : List Char) :
    ∀ rest : List Char, matchAt p rest = true →
      matchAt p (rest.take p.length) = true := by
  induction p with
  | nil => intro rest _; simp [matchAt]
  | cons pc ps ih =>
    intro rest h
    cases rest with
    | nil => simp [matchAt] at h
    | cons tc ts =>
      simp only [matchAt, Bool.and_eq_true] at h
      simp only [List.length_cons, List.take_succ_cons, matchAt,
        Bool.and_eq_true]
      exact ⟨h.1, ih ts h.2⟩

end Matching

namespace DocChange

theorem addAllToSet_nil (s : List String) : addAllToSet s [] = s := rfl

theorem addAllToSet_cons (s : List String) (a : String) (l : List String) :
    addAllToSet s (a :: l) = addAllToSet (addToSet s a) l := rfl

theorem graveyardMarkersNew_nil (rm : List String) :
    graveyardMarkersNew rm [] = rm := rfl

theorem graveyardMarkersNew_cons (rm : List String) (c : ChangedMarker)
    (rest : List ChangedMarker) :
    graveyardMarkersNew rm (c :: rest) =
      graveyardMarkersNew
        (match c.newRangeRoot with
         | some root => if root = "$graveyard" then addToSet rm c.name else rm
         | none => rm)
        rest := rfl

theorem nodesSweep_nil (m : DocModel) (rm : List String) :
    nodesSweep m [] rm = rm := rfl

theorem nodesSweep_cons (m : DocModel) (node : String) (rest : List String)
    (rm : List String) :
    nodesSweep m (node :: rest) rm =
      nodesSweep m rest (addAllToSet rm (m.markersInNode node)) := rfl

theorem mem_addToSet_self (s : List String) (a : String) : a ∈ addToSet s a := by
  unfold addToSet
  by_cases h : a ∈ s
  · simp [h]
  · simp [h]

theorem mem_addToSet_of_mem (s : List String) (a b : String) (h : b ∈ s) :
    b ∈ addToSet s a := by
  unfold addToSet
  by_cases ha : a ∈ s
  · simpa [ha]
  · simp only [ha, if_false, List.mem_append, List.mem_singleton]
    exact Or.inl h

theorem mem_addAllToSet_of_mem (l : List String) :
    ∀ (s : List String) (b : String), b ∈ s → b ∈ addAllToSet s l := by
  induction l with
  | nil => intro s b h; simpa [addAllToSet_nil]
  | cons a rest ih =>
    intro s b h
    rw [addAllToSet_cons]
    exact ih _ b (mem_addToSet_of_mem s a b h)

theorem addToSet_nodup (s : List String) (a : String) (h : s.Nodup) :
    (addToSet s a).Nodup := by
  unfold addToSet
  by_cases ha : a ∈ s
  · simpa [ha]
  · simp only [ha, if_false]
    rw [List.nodup_append]
    refine ⟨h, List.nodup_singleton a, ?_⟩
    intro x hx hxa
    rcases List.mem_singleton.mp hxa with rfl
    exact ha hx

theorem addAllToSet_nodup (l : List String) :
    ∀ s : List String, s.Nodup → (addAllToSet s l).Nodup := by
  induction l with
  | nil => intro s h; simpa [addAllToSet_nil]
  | cons a rest ih =>
    intro s h
    rw [addAllToSet_cons]
    exact ih _ (addToSet_nodup s a h)

theorem changesLoop_fold_nodup (m : DocModel) (changes : List ChangeEntry) :
    ∀ acc : List String × List String, acc.2.Nodup →
      (changes.foldl (changesStep m) acc).2.Nodup := by
  induction changes with
  | nil => intro acc h; simpa
  | cons c rest ih =>
    intro acc h
    rw [List.foldl_cons]
    apply ih
    unfold changesStep
    by_cases hc : (decide (c.name = "$text") || m.isInline c.posNodeAfter) = true
    · simp only [hc, if_true]
      exact addAllToSet_nodup _ _ h
    · by_cases ht : c.type = "insert"
      · simp only [hc, if_false, ht, if_true]
        exact h
      · simp only [hc, if_false, ht]
        exact h

theorem changesLoop_removedMarkers_nodup (m : DocModel) :
    (changesLoop m).2.Nodup :=
  changesLoop_fold_nodup m m.changes ([], []) List.nodup_nil

theorem mem_graveyardMarkersNew_of_mem (cms : List ChangedMarker) :
    ∀ (rm : List String) (b : String), b ∈ rm →
      b ∈ graveyardMarkersNew rm cms := by
  induction cms with
  | nil => intro rm b h; simpa [graveyardMarkersNew_nil]
  | cons c rest ih =>
    intro rm b h
    rw [graveyardMarkersNew_cons]
    apply ih
    cases hc : c.newRangeRoot with
    | none => simpa [hc] using h
    | some root =>
      by_cases hg : root = "$graveyard"
      · simpa [hc, hg] using mem_addToSet_of_mem rm c.name b h
      · simpa [hc, hg] using h

theorem mem_graveyardMarkersNew (cms : List ChangedMarker) :
    ∀ (rm : List String) (cm : ChangedMarker), cm ∈ cms →
      cm.newRangeRoot = some "$graveyard" →
      cm.name ∈ graveyardMarkersNew rm cms := by
  induction cms with
  | nil => intro rm cm h _; simp at h
  | cons c rest ih =>
    intro rm cm h hg
    rw [graveyardMarkersNew_cons]
    rcases List.mem_cons.mp h with rfl | h2
    · have hstep : (match cm.newRangeRoot with
          | some root => if root = "$graveyard" then addToSet rm cm.name else rm
          | none => rm) = addToSet rm cm.name := by
        rw [hg]
        simp
      rw [hstep]
      exact mem_graveyardMarkersNew_of_mem rest _ cm.name
        (mem_addToSet_self rm cm.name)
    · exact ih _ cm h2 hg

theorem graveyardMarkersNew_nodup (cms : List ChangedMarker) :
    ∀ rm : List String, rm.Nodup → (graveyardMarkersNew rm cms).Nodup := by
  induction cms with
  | nil => intro rm h; simpa [graveyardMarkersNew_nil]
  | cons c rest ih =>
    intro rm h
    rw [graveyardMarkersNew_cons]
    apply ih
    cases hc : c.newRangeRoot with
    | none => simpa [hc] using h
    | some root =>
      by_cases hg : root = "$graveyard"
      · simpa [hc, hg] using addToSet_nodup rm c.name h
      · simpa [hc, hg] using h

theorem mem_nodesSweep_of_mem (m : DocModel) (cn : List String) :
    ∀ (rm : List String) (b : String), b ∈ rm → b ∈ nodesSweep m cn rm := by
  induction cn with
  | nil => intro rm b h; simpa [nodesSweep_nil]
  | cons node rest ih =>
    intro rm b h
    rw [nodesSweep_cons]
    exact ih _ b (mem_addAllToSet_of_mem _ rm b h)

theorem nodesSweep_nodup (m : DocModel) (cn : List String) :
    ∀ rm : List String, rm.Nodup → (nodesSweep m cn rm).Nodup := by
  induction cn with
  | nil => intro rm h; simpa [nodesSweep_nil]
  | cons node rest ih =>
    intro rm h
    rw [nodesSweep_cons]
    exact ih _ (addAllToSet_nodup _ rm h)

theorem onDocumentChangeNew_removedMarkers_nodup (m : DocModel)
    (store : List String) :
    (onDocumentChangeNew m store).removedMarkers.Nodup :=
  nodesSweep_nodup m (changesLoop m).1 _
    (graveyardMarkersNew_nodup m.changedMarkers _
      (changesLoop_removedMarkers_nodup m))

theorem removalPhaseNew_nil (store : List String) :
    removalPhaseNew store [] = (store, []) := rfl

theorem removalPhaseNew_cons_mem (store : List String) (n : String)
    (ns : List String) (h : n ∈ store) :
    removalPhaseNew store (n :: ns) =
      ((removalPhaseNew (store.erase n) ns).1,
       .removeResult n :: .removeMarker n ::
         (removalPhaseNew (store.erase n) ns).2) := by
  simp [removalPhaseNew, h]

theorem removalPhaseNew_cons_not_mem (store : List String) (n : String)
    (ns : List String) (h : n ∉ store) :
    removalPhaseNew store (n :: ns) =
      ((removalPhaseNew store ns).1,
       .removeMarker n :: (removalPhaseNew store ns).2) := by
  simp [removalPhaseNew, h]

theorem removalPhaseNew_removeMarker_mem (ns : List String) :
    ∀ (store : List String) (n : String), n ∈ ns →
      RemovalEvent.removeMarker n ∈ (removalPhaseNew store ns).2 := by
  induction ns with
  | nil => intro store n h; simp at h
  | cons n' rest ih =>
    intro store n h
    by_cases hs : n' ∈ store
    · rw [removalPhaseNew_cons_mem store n' rest hs]
      rcases List.mem_cons.mp h with rfl | h2
      · simp
      · simp only [List.mem_cons]
        exact Or.inr (Or.inr (ih _ n h2))
    · rw [removalPhaseNew_cons_not_mem store n' rest hs]
      rcases List.mem_cons.mp h with rfl | h2
      · simp
      · simp only [List.mem_cons]
        exact Or.inr (ih _ n h2)

theorem removalPhaseNew_removeResult_mem (ns : List String) :
    ∀ (store : List String) (n : String), n ∈ ns → n ∈ store →
      RemovalEvent.removeResult n ∈ (removalPhaseNew store ns).2 := by
  induction ns with
  | nil => intro store n h _; simp at h
  | cons n' rest ih =>
    intro store n h hn
    by_cases hs : n' ∈ store
    · rw [removalPhaseNew_cons_mem store n' rest hs]
      rcases List.mem_cons.mp h with rfl | h2
      · simp
      · by_cases hne : n = n'
        · subst hne; simp
        · simp only [List.mem_cons]
          refine Or.inr (Or.inr (ih _ n h2 ?_))
          exact (List.mem_erase_of_ne hne).mpr hn
    · rw [removalPhaseNew_cons_not_mem store n' rest hs]
      rcases List.mem_cons.mp h with rfl | h2
      · exact absurd hn hs
      · simp only [List.mem_cons]
        exact Or.inr (ih _ n h2 hn)

theorem removalPhaseNew_result_before_marker (ns : List String) :
    ∀ (store : List String) (n : String) (j : Nat), n ∈ store →
      ((removalPhaseNew store ns).2)[j]? = some (.removeMarker n) →
      ∃ i, i < j ∧
        ((removalPhaseNew store ns).2)[i]? = some (.removeResult n) := by
  induction ns with
  | nil =>
    intro store n j _ hj
    simp [removalPhaseNew_nil] at hj
  | cons n' rest ih =>
    intro store n j hn hj
    by_cases hs : n' ∈ store
    · rw [removalPhaseNew_cons_mem store n' rest hs] at hj ⊢
      cases j with
      | zero =>
        rw [List.getElem?_cons_zero] at hj
        simp at hj
      | succ j1 =>
        cases j1 with
        | zero =>
          rw [List.getElem?_cons_succ, List.getElem?_cons_zero] at hj
          simp at hj
          refine ⟨0, by omega, ?_⟩
          rw [List.getElem?_cons_zero, hj]
        | succ j2 =>
          rw [List.getElem?_cons_succ, List.getElem?_cons_succ] at hj
          by_cases hne : n = n'
          · subst hne
            refine ⟨0, by omega, ?_⟩
            rw [List.getElem?_cons_zero]
          · have hnerase : n ∈ store.erase n' :=
              (List.mem_erase_of_ne hne).mpr hn
            obtain ⟨i, hi, hev⟩ := ih (store.erase n') n j2 hnerase hj
            refine ⟨i + 2, by omega, ?_⟩
            rw [List.getElem?_cons_succ, List.getElem?_cons_succ]
            exact hev
    · rw [removalPhaseNew_cons_not_mem store n' rest hs] at hj ⊢
      have hne : n ≠ n' := fun he => hs (he ▸ hn)
      cases j with
      | zero =>
        rw [List.getElem?_cons_zero] at hj
        simp at hj
        exact absurd hj.symm hne
      | succ j1 =>
        rw [List.getElem?_cons_succ] at hj
        obtain ⟨i, hi, hev⟩ := ih store n j1 hn hj
        refine ⟨i + 1, by omega, ?_⟩
        rw [List.getElem?_cons_succ]
        exact hev

theorem removalPhaseLegacy_nil (store : List String) :
    removalPhaseLegacy store [] = Except.ok (store, []) := rfl

theorem removalPhaseLegacy_agrees (ns : List String) :
    ∀ store : List String, ns.Nodup → (∀ n ∈ ns, n ∈ store) →
      removalPhaseLegacy store ns =
        Except.ok (removalPhaseNew store ns) := by
  induction ns with
  | nil =>
    intro store _ _
    rw [removalPhaseLegacy_nil, removalPhaseNew_nil]
  | cons n rest ih =>
    intro store hnd hmem
    have hn : n ∈ store := hmem n (List.mem_cons_self n rest)
    have hrest : ∀ x ∈ rest, x ∈ store.erase n := by
      intro x hx
      have hxs : x ∈ store := hmem x (List.mem_cons_of_mem n hx)
      have hxn : x ≠ n := by
        intro he; subst he
        exact (List.nodup_cons.mp hnd).1 hx
      exact (List.mem_erase_of_ne hxn).mpr hxs
    have hrec := ih (store.erase n) (List.nodup_cons.mp hnd).2 hrest
    unfold removalPhaseLegacy
    rw [if_pos hn, hrec, removalPhaseNew_cons_mem store n rest hn]

theorem graveyardMarkersLegacy_agrees (cms : List ChangedMarker) :
    ∀ rm : List String, (∀ cm ∈ cms, cm.newRangeRoot.isSome) →
      graveyardMarkersLegacy rm cms =
        Except.ok (graveyardMarkersNew rm cms) := by
  induction cms with
  | nil => intro rm _; rfl
  | cons c rest ih =>
    intro rm hsome
    obtain ⟨root, hroot⟩ := Option.isSome_iff_exists.mp
      (hsome c (List.mem_cons_self c rest))
    have hrec := ih (if root = "$graveyard" then addToSet rm c.name else rm)
      (fun cm hcm => hsome cm (List.mem_cons_of_mem c hcm))
    rw [graveyardMarkersNew_cons]
    unfold graveyardMarkersLegacy
    rw [hroot]
    exact hrec

end DocChange

namespace Highlight

theorem isPrefixOf_append_self (p x : List Char) :
    p.isPrefixOf (p ++ x) = true := by
  induction p with
  | nil => cases x <;> rfl
  | cons c rest ih =>
    show (c == c && rest.isPrefixOf (rest ++ x)) = true
    rw [beq_self_eq_true, ih]
    rfl

theorem highlightMarkers_nil_of_no_highlight (markers : List Marker)
    (h : ∀ m ∈ markers, isHighlightName m.name = false) :
    highlightMarkers markers = [] := by
  unfold highlightMarkers
  rw [List.filter_eq_nil_iff]
  intro m hm
  simp [h m hm]

theorem highlightMarkers_removeOld (markers : List Marker)
    (oldValue : Option FoundResult)
    (hold : ∀ m ∈ markers, isHighlightName m.name = true →
      ∃ r, oldValue = some r ∧ m.name = highlightNameOf r) :
    highlightMarkers (removeOldHighlight markers oldValue) = [] := by
  cases oldValue with
  | none =>
    apply highlightMarkers_nil_of_no_highlight
    intro m hm
    cases hval : isHighlightName m.name
    · rfl
    · obtain ⟨r, hr, _⟩ := hold m hm hval
      exact Option.noConfusion hr
  | some r =>
    cases hg : getMarker markers (highlightNameOf r) with
    | some found =>
      have hred : removeOldHighlight markers (some r) =
          removeMarkerByName markers (highlightNameOf r) := by
        show (match getMarker markers (highlightNameOf r) with
              | some _ => removeMarkerByName markers (highlightNameOf r)
              | none => markers) =
          removeMarkerByName markers (highlightNameOf r)
        rw [hg]
      rw [hred]
      apply highlightMarkers_nil_of_no_highlight
      intro m hm
      unfold removeMarkerByName at hm
      rw [List.mem_filter] at hm
      obtain ⟨hmem, hneq⟩ := hm
      have hne : m.name ≠ highlightNameOf r := of_decide_eq_true hneq
      cases hval : isHighlightName m.name
      · rfl
      · obtain ⟨r', hr', hname⟩ := hold m hmem hval
        have hrr : r = r' := Option.some.inj hr'
        subst hrr
        exact absurd hname hne
    | none =>
      have hred : removeOldHighlight markers (some r) = markers := by
        show (match getMarker markers (highlightNameOf r) with
              | some _ => removeMarkerByName markers (highlightNameOf r)
              | none => markers) = markers
        rw [hg]
      rw [hred]
      apply highlightMarkers_nil_of_no_highlight
      intro m hm
      cases hval : isHighlightName m.name
      · rfl
      · obtain ⟨r', hr', hname⟩ := hold m hm hval
        have hrr : r = r' := Option.some.inj hr'
        subst hrr
        have hnone := List.find?_eq_none.mp hg m hm
        exact absurd (by simp [hname]) hnone

end Highlight

/-- Claim C1: for every range over the assumed schema (text nodes plus the
single line-break inline element), `rangeToText` returns a string whose
length equals the range's length in tree-position units: each text item
contributes its character data and every non-text item contributes exactly
one placeholder character. -/
theorem c1_rangeToText_length (items : List Proj.RangeItem) :
    (Proj.rangeToText items).length = Proj.rangeLength items := by
  have := Proj.rangeToText_foldl_init items ""
  simpa [Proj.rangeToText] using this

/-- Claim C2 (failing-input evaluation): the built-in find callback produced
for the empty search string, run on the text "abc", does not return zero
matches — the regular expression built from the empty search term matches
the empty string at every position, so four zero-width matches are
reported, while the spec requires zero matches for empty search text. -/
theorem c2_empty_search_matches_everywhere :
    Matching.findByTextCallback "" "abc" =
      [⟨"", 0, 0⟩, ⟨"", 1, 1⟩, ⟨"", 2, 2⟩, ⟨"", 3, 3⟩] ∧
    Matching.findByTextCallback "" "abc" ≠ [] := by
  exact ⟨rfl, by decide⟩

/-- Claim C3: for every sequence of insertions performed via
`findInsertIndex`, starting from any sorted Result Store, the store remains
sorted ascending by each result's marker start position. -/
theorem c3_insertions_keep_store_sorted (inserts : List Store.FoundResult)
    (init : List Store.FoundResult) (h : Store.SortedByStart init) :
    Store.SortedByStart (inserts.foldl Store.insertResult init) := by
  induction inserts generalizing init with
  | nil => simpa using h
  | cons item rest ih =>
    rw [List.foldl_cons]
    exact ih _ (Store.insertResult_sorted init item h)

/-- Witness for C3: inserting results with starts 4, 0, 8 into the empty
store (in that discovery order) leaves the store sorted. -/
theorem c3_witness :
    Store.SortedByStart
      (([⟨"findResult:a", "x", 4⟩, ⟨"findResult:b", "y", 0⟩,
         ⟨"findResult:c", "z", 8⟩] : List Store.FoundResult).foldl
        Store.insertResult []) :=
  c3_insertions_keep_store_sorted _ [] (by decide)

/-- Claim C5: on the input text "foo foo foo foo" with search term "foo",
the built-in find callback returns exactly four matches with half-open
character spans [0,3], [4,7], [8,11], [12,15], each labelled "foo",
ordered ascending by start offset. -/
theorem c5_foo_scenario :
    Matching.findByTextCallback "foo" "foo foo foo foo" =
      [⟨"foo", 0, 3⟩, ⟨"foo", 4, 7⟩, ⟨"foo", 8, 11⟩, ⟨"foo", 12, 15⟩] := by
  rfl

/-- Claim C6: during the invalidate step of every document-change reaction,
for every invalidated marker whose Found Result is in the Result Store, the
result's removal event strictly precedes the marker's removal event in the
removal transaction (the whole transaction being the single `model.change`
block the embedding produces). -/
theorem c6_result_removed_before_marker (m : DocChange.DocModel)
    (store : List String) (n : String) (j : Nat) (hn : n ∈ store)
    (hj : ((DocChange.onDocumentChangeNew m store).removalTxn)[j]? =
      some (.removeMarker n)) :
    ∃ i, i < j ∧
      ((DocChange.onDocumentChangeNew m store).removalTxn)[i]? =
        some (.removeResult n) :=
  DocChange.removalPhaseNew_result_before_marker _ store n j hn hj

/-- Witness for C6: in the example model, marker `findResult:a` is removed
in the transaction at index 1, and its result removal sits strictly
earlier. -/
theorem c6_witness :
    "findResult:a" ∈ (["findResult:a", "findResult:g"] : List String) ∧
    ((DocChange.onDocumentChangeNew DocChange.exampleModel
        ["findResult:a", "findResult:g"]).removalTxn)[1]? =
      some (.removeMarker "findResult:a") ∧
    ∃ i, i < 1 ∧
      ((DocChange.onDocumentChangeNew DocChange.exampleModel
          ["findResult:a", "findResult:g"]).removalTxn)[i]? =
        some (.removeResult "findResult:a") :=
  ⟨by decide, by decide,
    c6_result_removed_before_marker DocChange.exampleModel
      ["findResult:a", "findResult:g"] "findResult:a" 1 (by decide) (by decide)⟩

/-- Claim C7 (counterexample): `replace` is not guarded by a null check on
`activeResults` — with no active search session it still performs the
replacement: replacing the span [0,3) of "foo bar" by "baz" while
`activeResults` is null changes the document. -/
theorem c7_counterexample :
    Replace.replace ⟨"foo bar", none⟩ ⟨"findResult:a", 0, 3⟩
        (.text "baz") = ⟨"baz bar", none⟩ ∧
    (⟨"baz bar", none⟩ : Replace.PluginState) ≠ ⟨"foo bar", none⟩ := by
  exact ⟨rfl, by decide⟩

/-- Claim C7 (amended): `replaceAll` with no active search session
(`activeResults` null) is a no-op guarded by a null check — it returns
without error and leaves the state unchanged; `replace`, by contrast, has
no such guard and performs the replacement requested by its explicit
result argument regardless of session state. -/
theorem c7_replaceAll_noop (st : Replace.PluginState)
    (textOrCallback : Replace.TextOrCallback)
    (h : st.activeResults = none) :
    Replace.replaceAll st textOrCallback = st := by
  unfold Replace.replaceAll
  rw [h]

/-- Witness for C7 (amended): `replaceAll` on a session-less state leaves
it untouched. -/
theorem c7_witness :
    (⟨"abc", none⟩ : Replace.PluginState).activeResults = none ∧
    Replace.replaceAll ⟨"abc", none⟩ (.text "x") = ⟨"abc", none⟩ :=
  ⟨rfl, c7_replaceAll_noop ⟨"abc", none⟩ (.text "x") rfl⟩

/-- Claim C8: on every change of the highlighted-result field, within the
single transactional write of the listener: the old highlighted result's
highlight marker (derived by name from the old result's identity) is
removed when present (a no-op when already gone), and when a new
highlighted result is set, a highlight marker spanning exactly the new
result's marker range is created — so, provided every live highlight
marker belonged to the old highlighted result, afterwards the highlight
markers are exactly the new result's one (or none), hence at most one
highlight marker is live. -/
theorem c8_highlight_swap (markers : List Highlight.Marker)
    (oldValue newValue : Option Highlight.FoundResult)
    (hold : ∀ m ∈ markers, Highlight.isHighlightName m.name = true →
      ∃ r, oldValue = some r ∧ m.name = Highlight.highlightNameOf r) :
    Highlight.highlightMarkers
        (Highlight.onHighlightedResultChange markers oldValue newValue) =
      match newValue with
      | none => []
      | some r => [⟨Highlight.highlightNameOf r, r.markerRange⟩] := by
  unfold Highlight.onHighlightedResultChange
  cases newValue with
  | none =>
    exact Highlight.highlightMarkers_removeOld markers oldValue hold
  | some r1 =>
    show Highlight.highlightMarkers
      (Highlight.addMarker (Highlight.removeOldHighlight markers oldValue)
        (Highlight.highlightNameOf r1) r1.markerRange) = _
    unfold Highlight.addMarker Highlight.highlightMarkers
    rw [List.filter_append]
    have h1 := Highlight.highlightMarkers_removeOld markers oldValue hold
    unfold Highlight.highlightMarkers at h1
    rw [h1, List.nil_append]
    have hp : Highlight.isHighlightName (Highlight.highlightNameOf r1) = true :=
      Highlight.isPrefixOf_append_self Highlight.hlPrefixChars
        (Highlight.matchIdOf r1.markerName)
    simp [hp]

/-- Witness for C8: swapping the highlight from the result of marker
`findResult:aa` (whose highlight marker is live) to the result of marker
`findResult:bb` leaves exactly the new highlight marker live, spanning the
new result's range. -/
theorem c8_witness :
    (∀ m ∈ ([⟨"findResult:aa".data, (0, 3)⟩,
              ⟨"findResultHighlighted:aa".data, (0, 3)⟩] :
          List Highlight.Marker),
        Highlight.isHighlightName m.name = true →
        ∃ r, (some ⟨"findResult:aa".data, (0, 3)⟩ :
            Option Highlight.FoundResult) = some r ∧
          m.name = Highlight.highlightNameOf r) ∧
    Highlight.highlightMarkers
        (Highlight.onHighlightedResultChange
          [⟨"findResult:aa".data, (0, 3)⟩,
           ⟨"findResultHighlighted:aa".data, (0, 3)⟩]
          (some ⟨"findResult:aa".data, (0, 3)⟩)
          (some ⟨"findResult:bb".data, (4, 7)⟩)) =
      [⟨Highlight.highlightNameOf ⟨"findResult:bb".data, (4, 7)⟩, (4, 7)⟩] := by
  have hold : ∀ m ∈ ([⟨"findResult:aa".data, (0, 3)⟩,
      ⟨"findResultHighlighted:aa".data, (0, 3)⟩] : List Highlight.Marker),
      Highlight.isHighlightName m.name = true →
      ∃ r, (some ⟨"findResult:aa".data, (0, 3)⟩ :
          Option Highlight.FoundResult) = some r ∧
        m.name = Highlight.highlightNameOf r := by
    intro m hm hhl
    rcases List.mem_cons.mp hm with rfl | hm2
    · exact absurd hhl (by decide)
    · rcases List.mem_cons.mp hm2 with rfl | hm3
      · exact ⟨⟨"findResult:aa".data, (0, 3)⟩, rfl, by decide⟩
      · simp at hm3
  exact ⟨hold,
    c8_highlight_swap _ (some ⟨"findResult:aa".data, (0, 3)⟩)
      (some ⟨"findResult:bb".data, (4, 7)⟩) hold⟩

/-- Claim C9: during the collect step of every document-change reaction
(new edition), every changed marker whose new range starts in the
`$graveyard` root is marked invalidated: its name lands in the collected
removal set, its marker-removal event is in the removal transaction, and
when its Found Result is in the store its result-removal event is there
too. -/
theorem c9_graveyard_markers_invalidated (m : DocChange.DocModel)
    (store : List String) (cm : DocChange.ChangedMarker)
    (hm : cm ∈ m.changedMarkers)
    (hg : cm.newRangeRoot = some "$graveyard") :
    cm.name ∈ (DocChange.onDocumentChangeNew m store).removedMarkers ∧
    DocChange.RemovalEvent.removeMarker cm.name ∈
      (DocChange.onDocumentChangeNew m store).removalTxn ∧
    (cm.name ∈ store →
      DocChange.RemovalEvent.removeResult cm.name ∈
        (DocChange.onDocumentChangeNew m store).removalTxn) := by
  have hmem : cm.name ∈ DocChange.nodesSweep m (DocChange.changesLoop m).1
      (DocChange.graveyardMarkersNew (DocChange.changesLoop m).2
        m.changedMarkers) :=
    DocChange.mem_nodesSweep_of_mem m _ _ cm.name
      (DocChange.mem_graveyardMarkersNew m.changedMarkers _ cm hm hg)
  refine ⟨hmem, ?_, ?_⟩
  · exact DocChange.removalPhaseNew_removeMarker_mem _ store cm.name hmem
  · intro hstore
    exact DocChange.removalPhaseNew_removeResult_mem _ store cm.name hmem hstore

/-- Witness for C9: the changed marker `findResult:g`, moved to the
graveyard in the example model, is collected and removed together with its
result. -/
theorem c9_witness :
    (⟨"findResult:g", some "$graveyard"⟩ : DocChange.ChangedMarker) ∈
        DocChange.exampleModel.changedMarkers ∧
    ("findResult:g" ∈ (DocChange.onDocumentChangeNew DocChange.exampleModel
        ["findResult:g"]).removedMarkers ∧
      DocChange.RemovalEvent.removeMarker "findResult:g" ∈
        (DocChange.onDocumentChangeNew DocChange.exampleModel
          ["findResult:g"]).removalTxn ∧
      ("findResult:g" ∈ (["findResult:g"] : List String) →
        DocChange.RemovalEvent.removeResult "findResult:g" ∈
          (DocChange.onDocumentChangeNew DocChange.exampleModel
            ["findResult:g"]).removalTxn)) :=
  ⟨by decide,
    c9_graveyard_markers_invalidated DocChange.exampleModel ["findResult:g"]
      ⟨"findResult:g", some "$graveyard"⟩ (by decide) rfl⟩

/-- Claim C10 (counterexample): the two editions of `onDocumentChange` are
not equivalent — on a change batch whose only observation is a changed
marker with a null new range (the marker was removed in the batch), the
legacy edition raises a TypeError while the new edition completes without
error and performs no removals. -/
theorem c10_counterexample :
    DocChange.onDocumentChangeLegacy DocChange.nullRangeModel [] =
      Except.error "TypeError: null newRange has no start" ∧
    DocChange.onDocumentChangeNew DocChange.nullRangeModel [] =
      { changedNodes := [], removedMarkers := [], removalTxn := [],
        store := [] } := by
  exact ⟨rfl, rfl⟩

/-- Claim C10 (amended): the two editions agree — same changed nodes, same
collected markers, same removal transaction, same final store, same
re-scanned nodes, without error — whenever every changed marker carries a
non-null new range and every collected marker name is present in the
result store; otherwise the legacy edition raises an error where the new
one proceeds. -/
theorem c10_editions_agree (m : DocChange.DocModel) (store : List String)
    (hnull : ∀ cm ∈ m.changedMarkers, cm.newRangeRoot.isSome)
    (hstore : ∀ n ∈ (DocChange.onDocumentChangeNew m store).removedMarkers,
      n ∈ store) :
    DocChange.onDocumentChangeLegacy m store =
      Except.ok (DocChange.onDocumentChangeNew m store) := by
  have h1 := DocChange.graveyardMarkersLegacy_agrees m.changedMarkers
    (DocChange.changesLoop m).2 hnull
  have hnd := DocChange.onDocumentChangeNew_removedMarkers_nodup m store
  have h2 := DocChange.removalPhaseLegacy_agrees
    (DocChange.nodesSweep m (DocChange.changesLoop m).1
      (DocChange.graveyardMarkersNew (DocChange.changesLoop m).2
        m.changedMarkers))
    store hnd hstore
  unfold DocChange.onDocumentChangeLegacy
  rw [h1]
  simp only []
  rw [h2]
  rfl

/-- Witness for C10 (amended): on the example model with a store holding
both collected markers, the legacy edition returns exactly the new
edition's outcome. -/
theorem c10_witness :
    (∀ cm ∈ DocChange.exampleModel.changedMarkers, cm.newRangeRoot.isSome) ∧
    (∀ n ∈ (DocChange.onDocumentChangeNew DocChange.exampleModel
        ["findResult:a", "findResult:g"]).removedMarkers,
      n ∈ (["findResult:a", "findResult:g"] : List String)) ∧
    DocChange.onDocumentChangeLegacy DocChange.exampleModel
        ["findResult:a", "findResult:g"] =
      Except.ok (DocChange.onDocumentChangeNew DocChange.exampleModel
        ["findResult:a", "findResult:g"]) :=
  ⟨by decide, by decide,
    c10_editions_agree DocChange.exampleModel ["findResult:a", "findResult:g"]
      (by decide) (by decide)⟩

